import Mathlib

/-!
Verification of the Theia real-time transcriber (`src/Theia.py`).

The development shallowly embeds the parts of the program the claims are
about: the transcription worker's frame draining and block extraction
(`transcribe_thread`, lines 88-102), the capture callback's level
computation and single-slot level queue (`audio_thread.callback`,
lines 62-86), and the presentation loop's EMA / peak-hold meter update
and dB readout (`update_gui`, lines 104-158).

Audio samples are modelled as rationals (the code uses floats; the spec
is written at the level of exact arithmetic), except for the RMS -> dB
level mapping, which uses `Real.sqrt` and `Real.logb` and is modelled
over the reals.
-/

namespace Theia

/-- `SAMPLE_RATE = 16000` (Theia.py line 14). -/
def SAMPLE_RATE : ℕ := 16000

/-- `BLOCK_DURATION = 5` seconds per transcription block (line 15). -/
def BLOCK_DURATION : ℕ := 5

/-- Number of samples per transcription block: `SAMPLE_RATE * BLOCK_DURATION`
(the slice bound in lines 95-97). -/
def blockLen : ℕ := SAMPLE_RATE * BLOCK_DURATION

/-- A captured audio frame: a chunk of mono samples. -/
abbrev Frame := List ℚ

/-- One pass of the drain loop in lines 92-94: frames taken from the audio
queue in FIFO order are appended to the buffer (`np.concatenate`). -/
def drainFrames (buffer : Frame) (frames : List Frame) : Frame :=
  frames.foldl (fun b f => b ++ f) buffer

/-- Block extraction (lines 95-97), fuelled so that it is structural:
while the buffer holds at least `blockLen` samples, take the first
`blockLen` as a block (`buffer[:SAMPLE_RATE * BLOCK_DURATION]`) and keep
the remainder (`buffer[SAMPLE_RATE * BLOCK_DURATION:]`).  Returns the
extracted blocks in order together with the final remainder. -/
def extractBlocksFuel : ℕ → Frame → List Frame × Frame
  | 0, buf => ([], buf)
  | fuel + 1, buf =>
    if blockLen ≤ buf.length then
      let p := extractBlocksFuel fuel (buf.drop blockLen)
      (buf.take blockLen :: p.1, p.2)
    else ([], buf)

/-- Extract every complete block from the buffer.  `buf.length` fuel is
always enough because each extraction removes `blockLen ≥ 1` samples. -/
def extractBlocks (buf : Frame) : List Frame × Frame :=
  extractBlocksFuel buf.length buf

/-- One iteration of the worker loop (lines 90-100) on arrival of one
frame: append it to the buffer, then extract all blocks that fit.
The accumulator carries (blocks extracted so far, current buffer). -/
def workerStep (acc : List Frame × Frame) (f : Frame) : List Frame × Frame :=
  let p := extractBlocks (acc.2 ++ f)
  (acc.1 ++ p.1, p.2)

/-- The worker run over a whole arrival sequence, starting from the empty
buffer of line 89 (`buffer = np.empty((0, 1))`). -/
def runWorker (frames : List Frame) : List Frame × Frame :=
  frames.foldl workerStep ([], [])

/-- One buffer-advance step, as in line 97 (`buffer = buffer[...:]`); a
buffer shorter than one block is left untouched. -/
def extractOnce (buf : Frame) : Frame :=
  if blockLen ≤ buf.length then buf.drop blockLen else buf

theorem blockLen_pos : 0 < blockLen := by decide

theorem blockLen_eq : blockLen = 80000 := by decide

/-- Draining appends the frames' samples in arrival order. -/
theorem drainFrames_eq_flatten (buffer : Frame) (frames : List Frame) :
    drainFrames buffer frames = buffer ++ frames.flatten := by
  induction frames generalizing buffer with
  | nil => simp [drainFrames]
  | cons f fs ih =>
      simp only [drainFrames, List.foldl_cons, List.flatten_cons] at *
      rw [ih (buffer ++ f), List.append_assoc]

/-- Extraction splits the buffer: blocks, flattened, followed by the
remainder, give back exactly the input buffer. -/
theorem extractBlocksFuel_flatten (fuel : ℕ) (buf : Frame) :
    (extractBlocksFuel fuel buf).1.flatten ++ (extractBlocksFuel fuel buf).2 = buf := by
  induction fuel generalizing buf with
  | zero => simp [extractBlocksFuel]
  | succ n ih =>
      by_cases h : blockLen ≤ buf.length
      · simp only [extractBlocksFuel, if_pos h, List.flatten_cons, List.append_assoc]
        rw [ih (buf.drop blockLen), List.take_append_drop]
      · simp [extractBlocksFuel, if_neg h]

/-- With enough fuel, the remainder after extraction is shorter than one
block. -/
theorem extractBlocksFuel_rest_lt (fuel : ℕ) (buf : Frame) (hfuel : buf.length ≤ fuel) :
    (extractBlocksFuel fuel buf).2.length < blockLen := by
  induction fuel generalizing buf with
  | zero =>
      have : buf.length = 0 := Nat.le_zero.mp hfuel
      simpa [extractBlocksFuel, this] using blockLen_pos
  | succ n ih =>
      by_cases h : blockLen ≤ buf.length
      · simp only [extractBlocksFuel, if_pos h]
        apply ih
        have hlen : (buf.drop blockLen).length = buf.length - blockLen := by
          simp
        have hb := blockLen_pos
        omega
      · simpa [extractBlocksFuel, if_neg h] using Nat.lt_of_not_le h

/-- Every extracted block has length exactly `blockLen`. -/
theorem extractBlocksFuel_block_len (fuel : ℕ) (buf : Frame) :
    ∀ b ∈ (extractBlocksFuel fuel buf).1, b.length = blockLen := by
  induction fuel generalizing buf with
  | zero => simp [extractBlocksFuel]
  | succ n ih =>
      by_cases h : blockLen ≤ buf.length
      · simp only [extractBlocksFuel, if_pos h, List.mem_cons]
        rintro b (rfl | hb)
        · simpa using h
        · exact ih (buf.drop blockLen) b hb
      · simp [extractBlocksFuel, if_neg h]

theorem extractBlocks_flatten (buf : Frame) :
    (extractBlocks buf).1.flatten ++ (extractBlocks buf).2 = buf :=
  extractBlocksFuel_flatten buf.length buf

theorem extractBlocks_rest_lt (buf : Frame) :
    (extractBlocks buf).2.length < blockLen :=
  extractBlocksFuel_rest_lt buf.length buf le_rfl

theorem extractBlocks_block_len (buf : Frame) :
    ∀ b ∈ (extractBlocks buf).1, b.length = blockLen :=
  extractBlocksFuel_block_len buf.length buf

/-- A buffer shorter than one block yields no blocks. -/
theorem extractBlocks_of_lt (buf : Frame) (h : buf.length < blockLen) :
    extractBlocks buf = ([], buf) := by
  unfold extractBlocks
  cases hl : buf.length with
  | zero => simp [extractBlocksFuel]
  | succ n =>
      have hn : ¬ blockLen ≤ buf.length := Nat.not_le.mpr h
      simp [extractBlocksFuel, hn]

/-- Run-level invariant: the blocks extracted so far, flattened, followed
by the current buffer, are exactly the samples consumed so far. -/
theorem foldl_workerStep_flatten (frames : List Frame) :
    ∀ acc : List Frame × Frame,
      (frames.foldl workerStep acc).1.flatten ++ (frames.foldl workerStep acc).2
        = acc.1.flatten ++ (acc.2 ++ frames.flatten) := by
  induction frames with
  | nil => intro acc; simp
  | cons f fs ih =>
      intro acc
      simp only [List.foldl_cons]
      rw [ih (workerStep acc f)]
      simp only [workerStep, List.flatten_append, List.flatten_cons, List.append_assoc]
      rw [← List.append_assoc (extractBlocks (acc.2 ++ f)).1.flatten,
        extractBlocks_flatten]
      simp [List.append_assoc]

/-- Run-level invariant: the buffer stays shorter than one block. -/
theorem foldl_workerStep_rest_lt (frames : List Frame) :
    ∀ acc : List Frame × Frame, acc.2.length < blockLen →
      (frames.foldl workerStep acc).2.length < blockLen := by
  induction frames with
  | nil => intro acc h; simpa using h
  | cons f fs ih =>
      intro acc _
      simp only [List.foldl_cons]
      exact ih (workerStep acc f) (extractBlocks_rest_lt (acc.2 ++ f))

/-- Run-level invariant: every block the run has extracted has length
`blockLen`. -/
theorem foldl_workerStep_block_len (frames : List Frame) :
    ∀ acc : List Frame × Frame, (∀ b ∈ acc.1, b.length = blockLen) →
      ∀ b ∈ (frames.foldl workerStep acc).1, b.length = blockLen := by
  induction frames with
  | nil => intro acc h; simpa using h
  | cons f fs ih =>
      intro acc h
      simp only [List.foldl_cons]
      apply ih (workerStep acc f)
      intro b hb
      rcases List.mem_append.mp hb with hb | hb
      · exact h b hb
      · exact extractBlocks_block_len (acc.2 ++ f) b hb

/-- C1: For every sequence of frames enqueued on the frame queue in
order, the sample sequence the TranscriptionWorker appends to its
AudioBuffer is exactly the concatenation of those frames in arrival
order — the extracted blocks, flattened, followed by the leftover buffer,
reproduce `frames.flatten` with no reordering, duplication, or loss —
and the final remainder still buffered at shutdown is shorter than one
block. -/
theorem worker_preserves_sample_order (frames : List Frame) :
    (runWorker frames).1.flatten ++ (runWorker frames).2 = frames.flatten
      ∧ (runWorker frames).2.length < blockLen := by
  constructor
  · simpa using foldl_workerStep_flatten frames ([], [])
  · exact foldl_workerStep_rest_lt frames ([], []) (by simpa using blockLen_pos)

/-- Iterating the buffer-advance step `k` times drops `k` whole blocks. -/
theorem extractOnce_iterate (k : ℕ) (buf : Frame) (h : k * blockLen ≤ buf.length) :
    extractOnce^[k] buf = buf.drop (k * blockLen) := by
  induction k generalizing buf with
  | zero => simp
  | succ n ih =>
      rw [Function.iterate_succ_apply]
      have h1 : blockLen ≤ buf.length := by
        have := Nat.succ_mul n blockLen ▸ h
        omega
      have hstep : extractOnce buf = buf.drop blockLen := by
        simp [extractOnce, h1]
      have hs : (n + 1) * blockLen = n * blockLen + blockLen := Nat.succ_mul n blockLen
      have h2 : n * blockLen ≤ (buf.drop blockLen).length := by
        simp only [List.length_drop]
        omega
      rw [hstep, ih (buf.drop blockLen) h2]
      rw [List.drop_drop]
      congr 1
      ring

/-- C2: Every TranscriptionBlock extracted by the worker has length
exactly `SAMPLE_RATE * BLOCK_DURATION` samples, and after any number
`k ≥ 0` of extractions the AudioBuffer holds exactly the unconsumed
remainder, in order: `buf.drop (k * blockLen)`, of length
`totalAppended - k * blockLen`. -/
theorem block_extraction_sizes (buf : Frame) :
    (∀ b ∈ (extractBlocks buf).1, b.length = blockLen)
      ∧ ∀ k : ℕ, k * blockLen ≤ buf.length →
          extractOnce^[k] buf = buf.drop (k * blockLen)
            ∧ (extractOnce^[k] buf).length = buf.length - k * blockLen := by
  refine ⟨extractBlocks_block_len buf, fun k hk => ?_⟩
  refine ⟨extractOnce_iterate k buf hk, ?_⟩
  rw [extractOnce_iterate k buf hk]
  simp

/-- Helper for the C2 witness: a buffer of exactly one block length
yields exactly that one block and an empty remainder. -/
theorem extractBlocks_exact (buf : Frame) (h : buf.length = blockLen) :
    extractBlocks buf = ([buf], []) := by
  have hpos : 0 < buf.length := h ▸ blockLen_pos
  unfold extractBlocks
  cases hl : buf.length with
  | zero => omega
  | succ n =>
      have hle : blockLen ≤ buf.length := h.ge
      simp only [extractBlocksFuel, if_pos hle]
      rw [List.take_of_length_le h.le, List.drop_of_length_le h.le]
      cases n with
      | zero => simp [extractBlocksFuel]
      | succ m =>
          have hz : blockLen ≠ 0 := Nat.pos_iff_ne_zero.mp blockLen_pos
          simp [extractBlocksFuel, hz]

/-- Witness for C2 at a concrete one-block buffer and `k = 1`. -/
theorem block_extraction_sizes_witness :
    (List.replicate blockLen (0 : ℚ) ∈
        (extractBlocks (List.replicate blockLen (0 : ℚ))).1
      ∧ (List.replicate blockLen (0 : ℚ)).length = blockLen)
    ∧ (1 * blockLen ≤ (List.replicate blockLen (0 : ℚ)).length
      ∧ (extractOnce^[1] (List.replicate blockLen (0 : ℚ))).length
          = (List.replicate blockLen (0 : ℚ)).length - 1 * blockLen) := by
  have hmem : List.replicate blockLen (0 : ℚ) ∈
      (extractBlocks (List.replicate blockLen (0 : ℚ))).1 := by
    rw [extractBlocks_exact _ (by simp)]
    simp
  refine ⟨⟨hmem, (block_extraction_sizes _).1 _ hmem⟩, ⟨by simp, ?_⟩⟩
  exact ((block_extraction_sizes _).2 1 (by simp)).2

/-- If the total audio is shorter than one block, the run extracts
nothing and just accumulates the buffer. -/
theorem foldl_workerStep_small (frames : List Frame) :
    ∀ (bs : List Frame) (buf : Frame),
      buf.length + frames.flatten.length < blockLen →
      frames.foldl workerStep (bs, buf) = (bs, buf ++ frames.flatten) := by
  induction frames with
  | nil => intro bs buf _; simp
  | cons f fs ih =>
      intro bs buf h
      simp only [List.flatten_cons, List.length_append] at h
      have hlt : (buf ++ f).length < blockLen := by
        simp only [List.length_append]
        omega
      have hstep : workerStep (bs, buf) f = (bs, buf ++ f) := by
        simp [workerStep, extractBlocks_of_lt _ hlt]
      have h2 : (buf ++ f).length + fs.flatten.length < blockLen := by
        simp only [List.length_append, List.length_flatten] at *
        omega
      simp only [List.foldl_cons, hstep]
      rw [ih bs (buf ++ f) h2]
      simp [List.append_assoc]

/-- The arrival sequence of the C4 scenario: 20 frames of 1600 zero
samples each. -/
def framesC4 : List Frame := List.replicate 20 (List.replicate 1600 (0 : ℚ))

theorem framesC4_flatten_length : framesC4.flatten.length = 32000 := by
  rw [framesC4, List.length_flatten, List.map_replicate, List.length_replicate,
    List.sum_replicate, smul_eq_mul]

theorem runWorker_framesC4 : runWorker framesC4 = ([], framesC4.flatten) := by
  have h0 : ([] : Frame).length + framesC4.flatten.length < blockLen := by
    rw [List.length_nil, Nat.zero_add, framesC4_flatten_length, blockLen_eq]
    omega
  unfold runWorker
  rw [foldl_workerStep_small framesC4 [] [] h0, List.nil_append]

/-- Counterexample to C4 as stated: with the code's constants
(`SAMPLE_RATE = 16000`, `BLOCK_DURATION = 5`, so one block is 80000
samples), 20 frames of 1600 samples are only 32000 samples — the worker
extracts 0 blocks, not 2, and 32000 samples (not 16000) remain. -/
theorem scenario_20x1600_counterexample :
    ¬ ((runWorker framesC4).1.length = 2 ∧ (runWorker framesC4).2.length = 16000) := by
  intro hc
  have h2 : (runWorker framesC4).2.length = 32000 :=
    (congrArg (fun p => p.2.length) runWorker_framesC4).trans framesC4_flatten_length
  rw [h2] at hc
  exact absurd hc.2 (by decide)

/-- C4 amended: with sample rate 16000 and block duration 5 s, after 20
frames of 1600 samples each arrive and the worker processes them,
exactly 0 complete blocks are extracted (a complete block would need
`SAMPLE_RATE * BLOCK_DURATION = 80000` samples) and all 32000 samples
remain in the AudioBuffer. -/
theorem scenario_20x1600_amended :
    blockLen = 80000
      ∧ (runWorker framesC4).1.length = 0
      ∧ (runWorker framesC4).2.length = 32000 := by
  refine ⟨blockLen_eq, ?_, ?_⟩
  · exact congrArg (fun p => p.1.length) runWorker_framesC4
  · exact (congrArg (fun p => p.2.length) runWorker_framesC4).trans
      framesC4_flatten_length

/-- The speech engine as seen by the worker (`model.transcribe`, line
99): a synchronous call on one block that either returns text or raises
an error message. -/
abbrev Engine := Frame → Except String String

/-- Lines 99-102 applied to one block: push the returned text, or, under
`except Exception as e`, push the line `"Error: {e}"`. -/
def transcribeBlock (engine : Engine) (b : Frame) : String :=
  match engine b with
  | Except.ok t => t
  | Except.error e => "Error: " ++ e

/-- The transcript lines the worker pushes for a sequence of blocks,
processed strictly sequentially (the failed block is dropped, never
re-queued, and the loop continues with the next block). -/
def processBlocks (engine : Engine) (blocks : List Frame) : List String :=
  blocks.map (transcribeBlock engine)

/-- C3: if the engine raises only on block 3 of a 5-block sequence, the
transcript queue receives exactly 5 lines in block order — the 4
successful texts and the single line `"Error: {message}"` in place of
block 3 — the failed block's audio is not re-queued, and the worker
continues past the failure (one line per block, all five processed). -/
theorem engine_error_block3 (engine : Engine) (b1 b2 b3 b4 b5 : Frame)
    (t1 t2 t4 t5 m : String)
    (h1 : engine b1 = Except.ok t1) (h2 : engine b2 = Except.ok t2)
    (h3 : engine b3 = Except.error m)
    (h4 : engine b4 = Except.ok t4) (h5 : engine b5 = Except.ok t5) :
    processBlocks engine [b1, b2, b3, b4, b5]
      = [t1, t2, "Error: " ++ m, t4, t5] := by
  simp [processBlocks, transcribeBlock, h1, h2, h3, h4, h5]

/-- A concrete engine for the C3 witness: fails exactly on 3-sample
blocks. -/
def engineW : Engine := fun b =>
  if b.length = 3 then Except.error "boom" else Except.ok (toString b.length)

/-- Witness for C3 at a concrete engine and five concrete blocks. -/
theorem engine_error_block3_witness :
    processBlocks engineW
        [[0], [0, 0], [0, 0, 0], [0, 0, 0, 0], [0, 0, 0, 0, 0]]
      = ["1", "2", "Error: " ++ "boom", "4", "5"] :=
  engine_error_block3 engineW [0] [0, 0] [0, 0, 0] [0, 0, 0, 0] [0, 0, 0, 0, 0]
    "1" "2" "4" "5" "boom" rfl rfl rfl rfl rfl

/-- The capture callback's level handoff (lines 77-83): if the level
queue is not empty, one stale sample is removed (`get_nowait`), then the
new sample is put.  The queue is FIFO; samples are the `level` floats. -/
def pushLevel (q : List ℚ) (x : ℚ) : List ℚ :=
  (if q.isEmpty then q else q.tail) ++ [x]

/-- The presentation loop's drain of the level queue (lines 113-115):
`level = None`, then every queued sample is taken in turn, keeping the
last one. -/
def drainLatest (q : List ℚ) : Option ℚ :=
  q.foldl (fun _ x => some x) none

/-- C6: the level queue holds at most one unread sample.  Pushing a new
LevelSample when at most one unread sample is present (the invariant the
callback maintains) discards the stale sample and leaves the new sample
as the only one retrievable, so the queue again holds at most one sample
and a consumer draining it reads exactly the most recent level. -/
theorem level_queue_latest_wins (q : List ℚ) (x : ℚ) (h : q.length ≤ 1) :
    pushLevel q x = [x]
      ∧ (pushLevel q x).length ≤ 1
      ∧ drainLatest (pushLevel q x) = some x := by
  have hq : pushLevel q x = [x] := by
    match q with
    | [] => rfl
    | [a] => rfl
    | a :: b :: rest => simp at h
  exact ⟨hq, by rw [hq]; exact le_refl 1, by rw [hq]; rfl⟩

/-- Witness for C6 at a concrete one-sample queue. -/
theorem level_queue_latest_wins_witness :
    ([(1 : ℚ) / 2].length ≤ 1) ∧ pushLevel [(1 : ℚ) / 2] (3 / 4) = [3 / 4] :=
  ⟨by decide, (level_queue_latest_wins [(1 : ℚ) / 2] (3 / 4) (by decide)).1⟩

/-- `1e-10`, the epsilon added before taking the logarithm (line 72). -/
noncomputable def epsln : ℝ := 1 / 10 ^ 10

/-- RMS of one frame (line 70): `sqrt(mean(square(data)))`. -/
noncomputable def rmsOf (frame : List ℝ) : ℝ :=
  Real.sqrt ((frame.map fun x => x ^ 2).sum / frame.length)

/-- The dB value of one frame (line 72): `20 * log10(rms + 1e-10)`. -/
noncomputable def dbOf (frame : List ℝ) : ℝ :=
  20 * Real.logb 10 (rmsOf frame + epsln)

/-- Map a dB value to the 0..1 meter scale (line 74):
`min(max((db + 80) / 80, 0.0), 1.0)`. -/
noncomputable def levelOfDb (db : ℝ) : ℝ :=
  min (max ((db + 80) / 80) 0) 1

/-- The LevelSample the callback computes for one frame (lines 70-74). -/
noncomputable def levelOf (frame : List ℝ) : ℝ :=
  levelOfDb (dbOf frame)

/-- The callback's level including the `except` branch (lines 69-76): an
error during the computation yields `level = 0.0`. -/
noncomputable def levelComputed (err : Bool) (frame : List ℝ) : ℝ :=
  if err then 0 else levelOf frame

theorem log10_pos : 0 < Real.log 10 := Real.log_pos (by norm_num)

/-- `log10(1e-10) = -10`. -/
theorem logb_epsln : Real.logb 10 epsln = -10 := by
  have h10 : (10 : ℝ) ^ (10 : ℕ) ≠ 0 := by positivity
  have he : epsln = ((10 : ℝ) ^ (10 : ℕ))⁻¹ := by
    rw [epsln, one_div]
  rw [he, Real.logb, Real.log_inv, Real.log_pow]
  field_simp

/-- A silent frame maps to level 0. -/
theorem levelOf_zero_frame (n : ℕ) : levelOf (List.replicate n 0) = 0 := by
  have hrms : rmsOf (List.replicate n 0) = 0 := by
    have hmap : (List.replicate n (0 : ℝ)).map (fun x => x ^ 2)
        = List.replicate n 0 := by
      rw [List.map_replicate]
      norm_num
    rw [rmsOf, hmap, List.sum_replicate, smul_zero, zero_div, Real.sqrt_zero]
  have hdb : dbOf (List.replicate n 0) = -200 := by
    rw [dbOf, hrms, zero_add, logb_epsln]
    norm_num
  rw [levelOf, hdb, levelOfDb]
  norm_num

/-- C5: for every captured frame the LevelSample equals
`clamp((20*log10(rms + 1e-10) + 80) / 80, 0, 1)` with
`rms = sqrt(mean(sample^2))`; an all-zero frame yields level 0, a frame
whose computation raises yields level 0, and the level always lies in
`[0, 1]`. -/
theorem callback_level_formula :
    (∀ frame : List ℝ,
        levelOf frame
          = min (max ((20 * Real.logb 10
              (Real.sqrt ((frame.map fun x => x ^ 2).sum / frame.length)
                + 1 / 10 ^ 10) + 80) / 80) 0) 1)
      ∧ (∀ n : ℕ, levelOf (List.replicate n 0) = 0)
      ∧ (∀ frame : List ℝ, levelComputed true frame = 0)
      ∧ (∀ frame : List ℝ, 0 ≤ levelOf frame ∧ levelOf frame ≤ 1) := by
  refine ⟨fun frame => rfl, levelOf_zero_frame, fun frame => rfl, fun frame => ?_⟩
  unfold levelOf levelOfDb
  constructor
  · exact le_min (le_max_right _ 0) zero_le_one
  · exact min_le_right _ 1

/-- The numeric readout's inverse mapping (line 151):
`db = -80 + level * 80`. -/
noncomputable def dbReadout (level : ℝ) : ℝ := -80 + level * 80

/-- The readout text (lines 152-155): `none` stands for the string
`"-inf dB"`, shown when the displayed level is `≤ 0`; otherwise the
one-decimal text of the readout dB value is shown. -/
noncomputable def dbText (level : ℝ) : Option ℝ :=
  if level ≤ 0 then none else some (dbReadout level)

/-- C9: composing the forward dB-to-level clamp with the readout inverse
recovers the dB value clamped to `[-80, 0]`; and the readout shows
`"-inf dB"` exactly when the displayed level is `≤ 0`, else the
one-decimal text for `-80 + level * 80`. -/
theorem db_roundtrip_readout :
    (∀ db : ℝ, dbReadout (levelOfDb db) = min (max db (-80)) 0)
      ∧ (∀ level : ℝ, (dbText level = none ↔ level ≤ 0))
      ∧ (∀ level : ℝ, 0 < level → dbText level = some (-80 + level * 80)) := by
  refine ⟨fun db => ?_, fun level => ?_, fun level hl => ?_⟩
  · unfold dbReadout levelOfDb
    rcases le_total db (-80) with h | h
    · have h1 : (db + 80) / 80 ≤ 0 :=
        div_nonpos_of_nonpos_of_nonneg (by linarith) (by norm_num)
      rw [max_eq_right h1, max_eq_right h, min_eq_left (by norm_num : (-80 : ℝ) ≤ 0)]
      norm_num
    · rcases le_total db 0 with h2 | h2
      · have h1 : 0 ≤ (db + 80) / 80 := div_nonneg (by linarith) (by norm_num)
        have h3 : (db + 80) / 80 ≤ 1 := by
          rw [div_le_one (by norm_num : (0 : ℝ) < 80)]
          linarith
        rw [max_eq_left h1, min_eq_left h3, max_eq_left h, min_eq_left h2]
        field_simp
      · have h1 : 1 ≤ (db + 80) / 80 := by
          rw [le_div_iff₀ (by norm_num : (0 : ℝ) < 80)]
          linarith
        rw [max_eq_left (by linarith : (0 : ℝ) ≤ (db + 80) / 80),
          min_eq_right h1, max_eq_left (by linarith : (-80 : ℝ) ≤ db),
          min_eq_right h2]
        norm_num
  · unfold dbText
    split_ifs with h
    · simp [h]
    · simp [h]
  · unfold dbText dbReadout
    rw [if_neg (not_le.mpr hl)]

/-- Witness for C9 at `level = 1`. -/
theorem db_roundtrip_readout_witness :
    0 < (1 : ℝ) ∧ dbText 1 = some (-80 + 1 * 80) :=
  ⟨one_pos, db_roundtrip_readout.2.2 1 one_pos⟩

/-- `self.ema_alpha = 0.25` (line 49). -/
def ema_alpha : ℚ := 0.25

/-- `self.peak_decay = 0.02` (line 52). -/
def peak_decay : ℚ := 0.02

/-- The EMA update of line 120:
`ema_level = ema_alpha * level + (1 - ema_alpha) * ema_level`. -/
def emaStep (level ema : ℚ) : ℚ :=
  ema_alpha * level + (1 - ema_alpha) * ema

/-- The peak-hold update of lines 123-127: instant rise when the
displayed level exceeds the peak, else fall by `peak_decay` clamped at
zero. -/
def peakStep (display peak : ℚ) : ℚ :=
  if peak < display then display else max 0 (peak - peak_decay)

/-- The meter state of lines 48-51: `ema_level` and `peak_level`. -/
structure MeterState where
  ema_level : ℚ
  peak_level : ℚ
deriving DecidableEq

/-- Both meter fields start at `0.0` (lines 48 and 51). -/
def initMeter : MeterState := ⟨0, 0⟩

/-- One presentation tick's meter update (lines 112-127): with no queued
level sample the state is untouched; with a sample, the EMA is updated
first and the peak is then compared against the new displayed level. -/
def meterTick (s : MeterState) (sample : Option ℚ) : MeterState :=
  match sample with
  | none => s
  | some level =>
      let display := emaStep level s.ema_level
      ⟨display, peakStep display s.peak_level⟩

/-- The EMA sequence for a constant input level `L` from start `e0`. -/
def emaIter (L e0 : ℚ) : ℕ → ℚ
  | 0 => e0
  | n + 1 => emaStep L (emaIter L e0 n)

/-- The EMA stays strictly below a constant input level it starts below. -/
theorem emaIter_lt (L e0 : ℚ) (hL : e0 < L) : ∀ n, emaIter L e0 n < L := by
  intro n
  induction n with
  | zero => exact hL
  | succ n ih =>
      show emaStep L (emaIter L e0 n) < L
      unfold emaStep ema_alpha
      linarith

/-- Closed form: `emaIter L e0 n = L - (3/4)^n * (L - e0)`. -/
theorem emaIter_closed (L e0 : ℚ) :
    ∀ n, emaIter L e0 n = L - (3 / 4) ^ n * (L - e0) := by
  intro n
  induction n with
  | zero => simp [emaIter]
  | succ n ih =>
      show emaStep L (emaIter L e0 n) = _
      rw [ih]
      have ha : ema_alpha = 1 / 4 := by norm_num [ema_alpha]
      unfold emaStep
      rw [ha]
      ring

/-- C7: each tick with a level sample updates the EMA to
`alpha * level + (1 - alpha) * ema` with `alpha = 0.25`, and for a
constant input level `L` repeated over ticks the EMA rises strictly
monotonically from any start strictly between `0` and `L`, stays below
`L`, and converges to `L`. -/
theorem ema_monotone_convergence (L e0 : ℚ) (_h0 : 0 < e0) (hL : e0 < L) :
    (∀ level ema : ℚ, emaStep level ema = 0.25 * level + (1 - 0.25) * ema)
      ∧ StrictMono (emaIter L e0)
      ∧ (∀ n, emaIter L e0 n < L)
      ∧ Filter.Tendsto (emaIter L e0) Filter.atTop (nhds L) := by
  refine ⟨fun level ema => rfl, ?_, emaIter_lt L e0 hL, ?_⟩
  · apply strictMono_nat_of_lt_succ
    intro n
    have hlt := emaIter_lt L e0 hL n
    show emaIter L e0 n < emaStep L (emaIter L e0 n)
    unfold emaStep ema_alpha
    linarith
  · have hpow : Filter.Tendsto (fun n : ℕ => ((3 : ℚ) / 4) ^ n)
        Filter.atTop (nhds 0) :=
      tendsto_pow_atTop_nhds_zero_of_lt_one (by norm_num) (by norm_num)
    have hmain : Filter.Tendsto (fun n : ℕ => L - (3 / 4) ^ n * (L - e0))
        Filter.atTop (nhds (L - 0 * (L - e0))) :=
      Filter.Tendsto.sub tendsto_const_nhds (hpow.mul_const (L - e0))
    rw [zero_mul, sub_zero] at hmain
    exact hmain.congr fun n => (emaIter_closed L e0 n).symm

/-- Witness for C7 at `L = 1`, `e0 = 1/2`. -/
theorem ema_monotone_convergence_witness :
    0 < (1 / 2 : ℚ) ∧ (1 / 2 : ℚ) < 1
      ∧ emaIter 1 (1 / 2) 0 < emaIter 1 (1 / 2) 1 :=
  ⟨by norm_num, by norm_num,
    (ema_monotone_convergence 1 (1 / 2) (by norm_num) (by norm_num)).2.1
      (Nat.lt_succ_self 0)⟩

/-- Counterexample to C8 as stated: start from the reachable state after
one level sample `0.16` (so `ema_level = peak_level = 0.04`), then let
the input drop to 0 and stay there.  On the first silent tick the peak
falls from `0.04` to `0.02`, but on the second silent tick the decayed
EMA (`0.0225`) overtakes the peak, which RISES to `0.0225` instead of
falling by `0.02` — so the peak does not decrease by exactly the decay
constant per tick until reaching 0. -/
theorem peak_decay_counterexample :
    ([some (0.16 : ℚ), some 0].foldl meterTick initMeter).peak_level = 1 / 50
      ∧ ([some (0.16 : ℚ), some 0, some 0].foldl meterTick initMeter).peak_level
          = 9 / 400
      ∧ ¬ (([some (0.16 : ℚ), some 0, some 0].foldl meterTick
              initMeter).peak_level
            ≤ ([some (0.16 : ℚ), some 0].foldl meterTick initMeter).peak_level) := by
  have h1 : meterTick initMeter (some 0.16) = ⟨1 / 25, 1 / 25⟩ := by
    simp only [meterTick, initMeter]
    have he : emaStep 0.16 0 = 1 / 25 := by
      unfold emaStep ema_alpha
      norm_num
    rw [he, peakStep, if_pos (by norm_num : (0 : ℚ) < 1 / 25)]
  have h2 : meterTick ⟨1 / 25, 1 / 25⟩ (some 0) = ⟨3 / 100, 1 / 50⟩ := by
    simp only [meterTick]
    have he : emaStep 0 (1 / 25) = 3 / 100 := by
      unfold emaStep ema_alpha
      norm_num
    rw [he, peakStep, if_neg (by norm_num : ¬ (1 / 25 : ℚ) < 3 / 100)]
    have hp : ((1 / 25 : ℚ) - peak_decay) = 1 / 50 := by
      unfold peak_decay
      norm_num
    rw [hp, max_eq_right (by norm_num : (0 : ℚ) ≤ 1 / 50)]
  have h3 : meterTick ⟨3 / 100, 1 / 50⟩ (some 0) = ⟨9 / 400, 9 / 400⟩ := by
    simp only [meterTick]
    have he : emaStep 0 (3 / 100) = 9 / 400 := by
      unfold emaStep ema_alpha
      norm_num
    rw [he, peakStep, if_pos (by norm_num : (1 / 50 : ℚ) < 9 / 400)]
  have hfold2 : [some (0.16 : ℚ), some 0].foldl meterTick initMeter
      = ⟨3 / 100, 1 / 50⟩ := by
    simp only [List.foldl_cons, List.foldl_nil, h1, h2]
  have hfold3 : [some (0.16 : ℚ), some 0, some 0].foldl meterTick initMeter
      = ⟨9 / 400, 9 / 400⟩ := by
    simp only [List.foldl_cons, List.foldl_nil, h1, h2, h3]
  rw [hfold2, hfold3]
  refine ⟨rfl, rfl, ?_⟩
  norm_num

/-- C8 amended: peak hold behaves as: if `emaLevel > peakLevel` then
`peakLevel` becomes `emaLevel` (instant rise), otherwise `peakLevel`
becomes `max(0, peakLevel - 0.02)` (linear fall); consequently the peak
never becomes negative when the displayed level is nonnegative, and on
every tick whose updated `emaLevel` does not exceed the current peak the
peak falls by exactly the decay constant `0.02`, clamped at 0.  (Once
the input drops to 0 and stays there, the peak need NOT fall by `0.02`
on every tick until reaching 0: the geometrically decaying EMA can
overtake the linearly falling peak, which then rises back to it.) -/
theorem peak_hold_amended :
    (∀ display peak : ℚ,
        peakStep display peak
          = if peak < display then display else max 0 (peak - 0.02))
      ∧ (∀ display peak : ℚ, display ≤ peak →
          peakStep display peak = max 0 (peak - 0.02))
      ∧ (∀ display peak : ℚ, display ≤ peak → 0.02 ≤ peak →
          peakStep display peak = peak - 0.02)
      ∧ (∀ display peak : ℚ, 0 ≤ display → 0 ≤ peakStep display peak) := by
  refine ⟨fun display peak => rfl, fun display peak h => ?_,
    fun display peak h h2 => ?_, fun display peak h => ?_⟩
  · rw [peakStep, if_neg (not_lt.mpr h)]
    rfl
  · rw [peakStep, if_neg (not_lt.mpr h)]
    show max 0 (peak - peak_decay) = peak - 0.02
    rw [max_eq_right]
    · rfl
    · show (0 : ℚ) ≤ peak - peak_decay
      unfold peak_decay
      linarith
  · unfold peakStep
    split_ifs with hlt
    · exact h
    · exact le_max_left 0 _

/-- Witness for C8 (amended) at `display = 0`, `peak = 1`. -/
theorem peak_hold_amended_witness :
    ((0 : ℚ) ≤ 1 ∧ (0.02 : ℚ) ≤ 1) ∧ peakStep 0 1 = 1 - 0.02 :=
  ⟨⟨by norm_num, by norm_num⟩,
    peak_hold_amended.2.2.1 0 1 (by norm_num) (by norm_num)⟩

/-- The C10 meter invariant: both fields lie in `[0, 1]`. -/
def meterInv (s : MeterState) : Prop :=
  0 ≤ s.ema_level ∧ s.ema_level ≤ 1 ∧ 0 ≤ s.peak_level ∧ s.peak_level ≤ 1

/-- One tick preserves the invariant when the consumed sample (if any)
lies in `[0, 1]`. -/
theorem meterTick_preserves (s : MeterState) (hs : meterInv s)
    (sample : Option ℚ) (hx : ∀ l : ℚ, sample = some l → 0 ≤ l ∧ l ≤ 1) :
    meterInv (meterTick s sample) := by
  match sample with
  | none => exact hs
  | some l =>
      obtain ⟨hl0, hl1⟩ := hx l rfl
      obtain ⟨he0, he1, hp0, hp1⟩ := hs
      have hd0 : 0 ≤ emaStep l s.ema_level := by
        unfold emaStep ema_alpha
        linarith
      have hd1 : emaStep l s.ema_level ≤ 1 := by
        unfold emaStep ema_alpha
        linarith
      refine ⟨hd0, hd1, ?_, ?_⟩
      · show 0 ≤ peakStep (emaStep l s.ema_level) s.peak_level
        unfold peakStep
        split_ifs with hlt
        · exact hd0
        · exact le_max_left 0 _
      · show peakStep (emaStep l s.ema_level) s.peak_level ≤ 1
        unfold peakStep
        split_ifs with hlt
        · exact hd1
        · apply max_le (by norm_num)
          unfold peak_decay
          linarith

theorem foldl_meterTick_inv (samples : List (Option ℚ)) :
    ∀ s : MeterState, meterInv s →
      (∀ l : ℚ, some l ∈ samples → 0 ≤ l ∧ l ≤ 1) →
      meterInv (samples.foldl meterTick s) := by
  induction samples with
  | nil => intro s hs _; exact hs
  | cons a rest ih =>
      intro s hs h
      simp only [List.foldl_cons]
      apply ih
      · exact meterTick_preserves s hs a fun l hl => h l (hl ▸ List.mem_cons_self a rest)
      · exact fun l hl => h l (List.mem_cons_of_mem a hl)

/-- C10: starting from the initial state `ema_level = 0`,
`peak_level = 0`, every presentation tick preserves
`0 ≤ ema_level ≤ 1` and `0 ≤ peak_level ≤ 1` provided every level sample
consumed lies in `[0, 1]`; and a tick that finds the level queue empty
leaves the state unchanged. -/
theorem meter_state_invariant (samples : List (Option ℚ))
    (h : ∀ l : ℚ, some l ∈ samples → 0 ≤ l ∧ l ≤ 1) :
    meterInv (samples.foldl meterTick initMeter)
      ∧ ∀ s : MeterState, meterTick s none = s := by
  refine ⟨foldl_meterTick_inv samples initMeter ?_ h, fun s => rfl⟩
  refine ⟨le_refl 0, ?_, le_refl 0, ?_⟩ <;>
    · show (0 : ℚ) ≤ 1
      norm_num

/-- Witness for C10 at the one-sample list `[some 1]`. -/
theorem meter_state_invariant_witness :
    (∀ l : ℚ, some l ∈ [some (1 : ℚ)] → 0 ≤ l ∧ l ≤ 1)
      ∧ meterInv ([some (1 : ℚ)].foldl meterTick initMeter) := by
  have h : ∀ l : ℚ, some l ∈ [some (1 : ℚ)] → 0 ≤ l ∧ l ≤ 1 := by
    intro l hl
    simp only [List.mem_singleton, Option.some.injEq] at hl
    subst hl
    norm_num
  exact ⟨h, (meter_state_invariant [some 1] h).1⟩

end Theia
